import Mathlib

/-!
Verification of the sso_auth server framework: a shallow embedding of the
message-framing state machine (`src/tcpudp.rs`), the connection pool and
event loop (`src/auth.rs`), and the verification endpoint (`src/verify.rs`),
together with theorems settling the specified properties.

Bytes are modelled as `Nat` values; byte strings as `List Nat`.  The
transport's available input is modelled as a list of chunks
(`List (List Nat)`): each chunk is the data a nonblocking `read` can see at
that moment, and an empty chunk is a "no data available right now" signal
(the `n == 0` / would-block case of the source).
-/

namespace SsoAuth

/-- Concatenation of all chunks: the total byte stream fed to the connection. -/
def flat : List (List Nat) → List Nat
  | [] => []
  | c :: r => c ++ flat r

@[simp] theorem flat_nil : flat [] = [] := rfl

@[simp] theorem flat_cons (c : List Nat) (r : List (List Nat)) :
    flat (c :: r) = c ++ flat r := rfl

/-- Overwrite the bytes of `buf` starting at position `off` with `bytes`:
the embedding of reading into the sub-slice `buf[off..]` of a fixed buffer. -/
def setRange (buf : List Nat) (off : Nat) (bytes : List Nat) : List Nat :=
  buf.take off ++ bytes ++ buf.drop (off + bytes.length)

theorem setRange_length (buf : List Nat) (off : Nat) (bytes : List Nat)
    (h1 : off ≤ buf.length) (h2 : off + bytes.length ≤ buf.length) :
    (setRange buf off bytes).length = buf.length := by
  simp [setRange]
  omega

/-- Buffer for keeping packets that were only read in part
(struct `BufferOffset` of `src/tcpudp.rs`).  `length` is the 4-byte staging
area for the length prefix, `buffer` the body buffer. -/
structure BufferOffset where
  reading_length : Bool
  offset : Nat
  length : List Nat
  buffer : List Nat
deriving DecidableEq

/-- `u32::from_le_bytes` on the 4-byte staging area. -/
def fromLEBytes (l : List Nat) : Nat :=
  match l with
  | [a, b, c, d] => a + 256 * b + 65536 * c + 16777216 * d
  | _ => 0

/-- The little-endian bytes of a `u32` (the four bytes `endio` writes). -/
def leBytes4 (n : Nat) : List Nat :=
  [n % 256, n / 256 % 256, n / 65536 % 256, n / 16777216 % 256]

/-- Bytes written by `Connection::send_raw`: the `u32` little-endian length
prefix (`data.len() as u32` truncates to 32 bits), then the payload. -/
def sendRawBytes (data : List Nat) : List Nat :=
  leBytes4 (data.length % 4294967296) ++ data

/-- The read loop of `receive_raw` (`while offset < target.len { read; ... }`):
reads from the chunk stream into `buf[off..]` until the buffer is full
(first component `true`) or a read sees no data (first component `false`,
the `n == 0` would-block case).  A read takes at most the remaining space
from the head chunk, pushing back what it could not take.  `fuel` bounds the
number of loop iterations; `buf.length + 1` is always sufficient because
every iteration either returns or strictly advances `off`. -/
def fillLoop : Nat → List Nat → Nat → List (List Nat) →
    Bool × List Nat × Nat × List (List Nat)
  | 0, buf, off, chunks => (false, buf, off, chunks)
  | fuel + 1, buf, off, chunks =>
    if off < buf.length then
      match chunks with
      | [] => (false, buf, off, [])
      | [] :: rest => (false, buf, off, rest)
      | (b :: c) :: rest =>
        let avail := b :: c
        let t := min (buf.length - off) avail.length
        if t = avail.length then
          fillLoop fuel (setRange buf off avail) (off + t) rest
        else
          fillLoop fuel (setRange buf off (avail.take t)) (off + t) (avail.drop t :: rest)
    else (true, buf, off, chunks)

/-- The fresh state of `Connection::from`: length-reading mode, offset 0,
zeroed staging area, empty body buffer. -/
def initConn : BufferOffset := ⟨true, 0, [0, 0, 0, 0], []⟩

/-- The body-reading phase of `receive_raw`: fill `buffer` from `offset`;
on would-block keep the partial state, on completion hand the buffer to the
caller and reset to length-reading mode with offset 0 and an empty buffer. -/
def bodyPhase (p : BufferOffset) (chunks : List (List Nat)) :
    Except Unit (List Nat) × BufferOffset × List (List Nat) :=
  match fillLoop (p.buffer.length + 1) p.buffer p.offset chunks with
  | (false, buf', off', chunks') =>
    (Except.error (), { p with buffer := buf', offset := off' }, chunks')
  | (true, buf', _, chunks') =>
    (Except.ok buf', { p with reading_length := true, offset := 0, buffer := [] }, chunks')

/-- `Connection::receive_raw`: in length-reading mode first fill the 4-byte
staging area (would-block preserves the partial offset), then parse the
little-endian length, allocate a zeroed body buffer of that size, switch to
body-reading mode with offset 0 and continue with the body in the same call. -/
def receive_raw (p : BufferOffset) (chunks : List (List Nat)) :
    Except Unit (List Nat) × BufferOffset × List (List Nat) :=
  if p.reading_length then
    match fillLoop (p.length.length + 1) p.length p.offset chunks with
    | (false, len', off', chunks') =>
      (Except.error (), { p with length := len', offset := off' }, chunks')
    | (true, len', _, chunks') =>
      bodyPhase { reading_length := false, offset := 0, length := len',
                  buffer := List.replicate (fromLEBytes len') 0 } chunks'
  else bodyPhase p chunks

/-- Repeated calls of `receive_raw`, as the event loop makes them: call after
call until a call succeeds (or `fuel` calls were made), collecting each
call's result. -/
def drive : Nat → BufferOffset → List (List Nat) →
    List (Except Unit (List Nat)) × BufferOffset × List (List Nat)
  | 0, p, chunks => ([], p, chunks)
  | fuel + 1, p, chunks =>
    match receive_raw p chunks with
    | (Except.ok b, p', chunks') => ([Except.ok b], p', chunks')
    | (Except.error e, p', chunks') =>
      match drive fuel p' chunks' with
      | (rs, p'', chunks'') => (Except.error e :: rs, p'', chunks'')

/-- Consistency of the bytes currently available on the stream with the
bytes still needed to finish the buffer being filled: either everything
needed (and possibly more) has already arrived, or what has arrived is a
strict prefix of what is needed. -/
def Compat (s needed : List Nat) : Prop :=
  (∃ e, s = needed ++ e) ∨ (∃ g, s ++ g = needed ∧ g ≠ [])

theorem compat_take {s needed : List Nat} (h : Compat s needed) (n : Nat)
    (hn : n ≤ needed.length) (hs : n ≤ s.length) : s.take n = needed.take n := by
  rcases h with ⟨e, he⟩ | ⟨g, hg, _⟩
  · rw [he, List.take_append_of_le_length hn]
  · rw [← hg, List.take_append_of_le_length hs]

theorem compat_drop {s needed : List Nat} (h : Compat s needed) (n : Nat)
    (hn : n ≤ needed.length) (hs : n ≤ s.length) : Compat (s.drop n) (needed.drop n) := by
  rcases h with ⟨e, he⟩ | ⟨g, hg, hne⟩
  · exact Or.inl ⟨e, by rw [he, List.drop_append_of_le_length hn]⟩
  · exact Or.inr ⟨g, by rw [← hg, List.drop_append_of_le_length hs], hne⟩

theorem setRange_take_inv {buf target bytes : List Nat} {off : Nat}
    (hlen : buf.length = target.length)
    (hb : off + bytes.length ≤ target.length)
    (htk : buf.take off = target.take off)
    (hby : bytes = (target.drop off).take bytes.length) :
    (setRange buf off bytes).take (off + bytes.length) =
      target.take (off + bytes.length) := by
  have hofftk : (buf.take off).length = off := by
    rw [List.length_take]
    omega
  have hL : ((buf.take off ++ bytes) : List Nat).length = off + bytes.length := by
    simp [hofftk]
  calc (setRange buf off bytes).take (off + bytes.length)
      = ((buf.take off ++ bytes) ++ buf.drop (off + bytes.length)).take (off + bytes.length) := by
        simp [setRange]
    _ = buf.take off ++ bytes := List.take_left' hL
    _ = target.take off ++ (target.drop off).take bytes.length := by rw [htk, ← hby]
    _ = target.take (off + bytes.length) := (List.take_add ..).symm

theorem fromLE_leBytes4 {n : Nat} (h : n < 4294967296) :
    fromLEBytes (leBytes4 n) = n := by
  simp [fromLEBytes, leBytes4]
  omega

theorem leBytes4_length (n : Nat) : (leBytes4 n).length = 4 := rfl

/-- Behaviour of the read loop against the buffer's intended final content
`target`.  If the loop completes, the buffer holds exactly `target` and the
needed bytes were consumed from the stream; if a read saw no data, the
partial fill is a prefix of `target`, the offset advanced by exactly the
consumed bytes, and (when data was available at all) at least one chunk was
consumed. -/
theorem fillLoop_spec (fuel : Nat) :
    ∀ (chunks : List (List Nat)) (buf : List Nat) (off : Nat) (target : List Nat),
    buf.length = target.length → off ≤ target.length →
    buf.take off = target.take off →
    Compat (flat chunks) (target.drop off) →
    target.length - off < fuel →
    (∀ buf' off' chunks', fillLoop fuel buf off chunks = (true, buf', off', chunks') →
       ∃ e, flat chunks = target.drop off ++ e ∧ flat chunks' = e ∧ buf' = target ∧
         chunks'.length ≤ chunks.length) ∧
    (∀ buf' off' chunks', fillLoop fuel buf off chunks = (false, buf', off', chunks') →
       buf'.length = target.length ∧ off ≤ off' ∧ off' < target.length ∧
       buf'.take off' = target.take off' ∧
       flat chunks = (target.drop off).take (off' - off) ++ flat chunks' ∧
       chunks'.length ≤ chunks.length ∧
       (chunks ≠ [] → chunks'.length < chunks.length)) := by
  induction fuel with
  | zero =>
    intro chunks buf off target _ _ _ _ hfu
    omega
  | succ fuel ih =>
    intro chunks buf off target hbl hot htk hcompat hfu
    by_cases hoff : off < buf.length
    · match chunks with
      | [] =>
        refine ⟨?_, ?_⟩
        · intro buf' off' chunks' heq
          simp [fillLoop, hoff] at heq
        · intro buf' off' chunks' heq
          simp only [fillLoop, if_pos hoff, Prod.mk.injEq] at heq
          obtain ⟨-, h1, h2, h3⟩ := heq
          subst h1; subst h2; subst h3
          exact ⟨hbl, le_refl _, by omega, htk, by simp, by simp,
            fun hne => absurd rfl hne⟩
      | [] :: rest =>
        refine ⟨?_, ?_⟩
        · intro buf' off' chunks' heq
          simp [fillLoop, hoff] at heq
        · intro buf' off' chunks' heq
          simp only [fillLoop, if_pos hoff, Prod.mk.injEq] at heq
          obtain ⟨-, h1, h2, h3⟩ := heq
          subst h1; subst h2; subst h3
          exact ⟨hbl, le_refl _, by omega, htk, by simp, by simp, fun _ => by simp⟩
      | (b :: c) :: rest =>
        have halen1 : 1 ≤ (b :: c).length := by simp
        have hflat : flat ((b :: c) :: rest) = (b :: c) ++ flat rest := rfl
        have hdlen : (target.drop off).length = target.length - off := by simp
        by_cases ht : min (buf.length - off) (b :: c).length = (b :: c).length
        · -- the whole head chunk fits in the remaining space
          have hale : (b :: c).length ≤ buf.length - off := by
            have := Nat.min_le_left (buf.length - off) (b :: c).length
            omega
          have hunf : fillLoop (fuel + 1) buf off ((b :: c) :: rest) =
              fillLoop fuel (setRange buf off (b :: c)) (off + (b :: c).length) rest := by
            simp only [fillLoop, if_pos hoff, ht]
            simp
          have hav : (b :: c) = (target.drop off).take (b :: c).length := by
            have h2 : ((flat ((b :: c) :: rest)).take (b :: c).length : List Nat) =
                (target.drop off).take (b :: c).length :=
              compat_take hcompat _ (by rw [hdlen]; omega)
                (by rw [hflat, List.length_append]; omega)
            rw [hflat, List.take_append_of_le_length (le_refl _), List.take_length] at h2
            exact h2
          have hdd : (target.drop off).drop (b :: c).length =
              target.drop (off + (b :: c).length) := by
            rw [List.drop_drop]
          have hsl : (setRange buf off (b :: c)).length = target.length := by
            rw [setRange_length _ _ _ (by omega) (by omega)]
            exact hbl
          have hstk := setRange_take_inv hbl (by omega) htk hav
          have hcompat' : Compat (flat rest) (target.drop (off + (b :: c).length)) := by
            have h2 : (flat ((b :: c) :: rest)).drop (b :: c).length = flat rest := by
              rw [hflat, List.drop_append_of_le_length (le_refl _), List.drop_length,
                List.nil_append]
            have h3 := compat_drop hcompat (b :: c).length (by rw [hdlen]; omega)
              (by rw [hflat, List.length_append]; omega)
            rw [h2, hdd] at h3
            exact h3
          obtain ⟨ihT, ihF⟩ := ih rest (setRange buf off (b :: c)) (off + (b :: c).length)
            target hsl (by omega) hstk hcompat' (by omega)
          refine ⟨?_, ?_⟩
          · intro buf' off' chunks' heq
            rw [hunf] at heq
            obtain ⟨e, he1, he2, he3, he4⟩ := ihT buf' off' chunks' heq
            refine ⟨e, ?_, he2, he3, ?_⟩
            · have hmain : target.drop off ++ e = (b :: c) ++ flat rest := by
                conv_lhs => rw [← List.take_append_drop (b :: c).length (target.drop off)]
                rw [List.append_assoc, hdd, ← he1, ← hav]
              rw [hflat, ← hmain]
            · simp only [List.length_cons]
              omega
          · intro buf' off' chunks' heq
            rw [hunf] at heq
            obtain ⟨h1, h2, h3, h4, h5, h6, -⟩ := ihF buf' off' chunks' heq
            refine ⟨h1, by omega, h3, h4, ?_, ?_, ?_⟩
            · have harith : (b :: c).length + (off' - (off + (b :: c).length)) =
                  off' - off := by omega
              have hTA : (target.drop off).take (off' - off) =
                  (target.drop off).take (b :: c).length ++
                    ((target.drop off).drop (b :: c).length).take
                      (off' - (off + (b :: c).length)) := by
                rw [← List.take_add, harith]
              have hmain : (target.drop off).take (off' - off) ++ flat chunks' =
                  (b :: c) ++ flat rest := by
                rw [hTA, hdd, List.append_assoc, ← h5, ← hav]
              rw [hflat, ← hmain]
            · simp only [List.length_cons]
              omega
            · intro
              simp only [List.length_cons]
              omega
        · -- only part of the head chunk fits: the buffer becomes full
          have htlt : buf.length - off < (b :: c).length := by
            by_contra hcon
            push_neg at hcon
            exact ht (Nat.min_eq_right hcon)
          have hmin : min (buf.length - off) (b :: c).length = buf.length - off :=
            Nat.min_eq_left (by omega)
          have hne2 : ¬ (buf.length - off = (b :: c).length) := by omega
          have hunf : fillLoop (fuel + 1) buf off ((b :: c) :: rest) =
              fillLoop fuel (setRange buf off ((b :: c).take (buf.length - off)))
                (off + (buf.length - off)) ((b :: c).drop (buf.length - off) :: rest) := by
            simp only [fillLoop, if_pos hoff, hmin, if_neg hne2]
          have htklen : ((b :: c).take (buf.length - off)).length = buf.length - off := by
            rw [List.length_take]
            omega
          have hfull : off + (buf.length - off) = target.length := by omega
          have httk : (b :: c).take (buf.length - off) =
              (target.drop off).take (buf.length - off) := by
            have h2 : ((flat ((b :: c) :: rest)).take (buf.length - off) : List Nat) =
                (target.drop off).take (buf.length - off) :=
              compat_take hcompat _ (by rw [hdlen]; omega)
                (by rw [hflat, List.length_append]; omega)
            rw [hflat, List.take_append_of_le_length (by omega)] at h2
            exact h2
          have htfull : (target.drop off).take (buf.length - off) = target.drop off := by
            apply List.take_of_length_le
            rw [hdlen]
            omega
          have hsl : (setRange buf off ((b :: c).take (buf.length - off))).length
              = target.length := by
            rw [setRange_length _ _ _ (by omega) (by rw [htklen]; omega)]
            exact hbl
          have hstk : (setRange buf off ((b :: c).take (buf.length - off))).take
                (off + (buf.length - off)) = target.take (off + (buf.length - off)) := by
            have h2 := @setRange_take_inv buf target ((b :: c).take (buf.length - off)) off
              hbl (by rw [htklen]; omega) htk (by rw [htklen]; exact httk)
            rw [htklen] at h2
            exact h2
          have hcompat' : Compat (flat ((b :: c).drop (buf.length - off) :: rest))
              (target.drop (off + (buf.length - off))) := by
            rw [hfull, List.drop_length]
            exact Or.inl ⟨flat ((b :: c).drop (buf.length - off) :: rest), by simp⟩
          obtain ⟨ihT, ihF⟩ := ih ((b :: c).drop (buf.length - off) :: rest)
            (setRange buf off ((b :: c).take (buf.length - off)))
            (off + (buf.length - off)) target hsl (by omega) hstk hcompat' (by omega)
          refine ⟨?_, ?_⟩
          · intro buf' off' chunks' heq
            rw [hunf] at heq
            obtain ⟨e, he1, he2, he3, he4⟩ := ihT buf' off' chunks' heq
            rw [hfull, List.drop_length, List.nil_append] at he1
            refine ⟨e, ?_, he2, he3, ?_⟩
            · have hbc : (b :: c) = target.drop off ++ (b :: c).drop (buf.length - off) := by
                conv_lhs => rw [← List.take_append_drop (buf.length - off) (b :: c)]
                rw [httk, htfull]
              rw [hflat, hbc, List.append_assoc, ← flat_cons, he1]
            · simp only [List.length_cons] at he4 ⊢
              omega
          · intro buf' off' chunks' heq
            rw [hunf] at heq
            obtain ⟨-, h2, h3, -⟩ := ihF buf' off' chunks' heq
            omega
    · -- the buffer is already full: the loop completes without reading
      have hunf : fillLoop (fuel + 1) buf off chunks = (true, buf, off, chunks) := by
        simp only [fillLoop, if_neg hoff]
      have hofffull : off = target.length := by omega
      refine ⟨?_, ?_⟩
      · intro buf' off' chunks' heq
        rw [hunf] at heq
        simp only [Prod.mk.injEq] at heq
        obtain ⟨-, h1, h2, h3⟩ := heq
        subst h1; subst h3
        refine ⟨flat chunks, by rw [hofffull, List.drop_length, List.nil_append], rfl, ?_,
          le_refl _⟩
        have h4 : buf.take off = buf := by
          apply List.take_of_length_le
          omega
        have h5 : target.take off = target := by
          apply List.take_of_length_le
          omega
        rw [← h4, htk, h5]
      · intro buf' off' chunks' heq
        rw [hunf] at heq
        simp at heq

/-- Refinement invariant of a connection part-way through receiving one
frame whose payload is `payload`: either it is still filling the 4-byte
length staging area, or it is filling the body buffer.  `rem` is the part of
the frame not yet consumed from the stream. -/
def Inv (payload : List Nat) (p : BufferOffset) (rem : List Nat) : Prop :=
  (p.reading_length = true ∧ p.offset < 4 ∧ p.length.length = 4 ∧
    p.length.take p.offset = (leBytes4 payload.length).take p.offset ∧
    rem = (leBytes4 payload.length).drop p.offset ++ payload) ∨
  (p.reading_length = false ∧ p.offset < payload.length ∧
    p.buffer.length = payload.length ∧
    p.buffer.take p.offset = payload.take p.offset ∧
    rem = payload.drop p.offset)

theorem bodyPhase_step (payload : List Nat) (p : BufferOffset) (chunks : List (List Nat))
    (hrl : p.reading_length = false)
    (hoff : p.offset ≤ payload.length)
    (hbl : p.buffer.length = payload.length)
    (htk : p.buffer.take p.offset = payload.take p.offset)
    (hch : flat chunks = payload.drop p.offset) :
    (∀ b p' chunks', bodyPhase p chunks = (Except.ok b, p', chunks') →
       b = payload ∧ p'.reading_length = true ∧ p'.offset = 0 ∧ p'.buffer = [] ∧
       flat chunks' = []) ∧
    (∀ p' chunks', bodyPhase p chunks = (Except.error (), p', chunks') →
       Inv payload p' (payload.drop p'.offset) ∧ flat chunks' = payload.drop p'.offset ∧
       chunks'.length ≤ chunks.length ∧ (chunks ≠ [] → chunks'.length < chunks.length)) := by
  obtain ⟨spT, spF⟩ := fillLoop_spec (p.buffer.length + 1) chunks p.buffer p.offset payload
    hbl (by omega) htk (Or.inl ⟨[], by rw [hch, List.append_nil]⟩) (by omega)
  rcases hfl : fillLoop (p.buffer.length + 1) p.buffer p.offset chunks
    with ⟨done, buf', off', chunks'⟩
  cases done
  · -- would-block: the loop stopped before filling the buffer
    have hr : bodyPhase p chunks =
        (Except.error (), { p with buffer := buf', offset := off' }, chunks') := by
      simp [bodyPhase, hfl]
    obtain ⟨hF1, hF2, hF3, hF4, hF5, hF6, hF7⟩ := spF buf' off' chunks' hfl
    refine ⟨?_, ?_⟩
    · intro b q qchunks heq
      rw [hr] at heq
      simp at heq
    · intro q qchunks heq
      rw [hr] at heq
      simp only [Prod.mk.injEq] at heq
      obtain ⟨-, h1, h2⟩ := heq
      subst h1; subst h2
      have e2 : ((payload.drop p.offset).drop (off' - p.offset)) = payload.drop off' := by
        rw [List.drop_drop]
        congr 1
        omega
      have e4 : (payload.drop p.offset).take (off' - p.offset) ++ flat chunks' =
          (payload.drop p.offset).take (off' - p.offset) ++ payload.drop off' := by
        rw [← hF5, hch]
        conv_lhs => rw [← List.take_append_drop (off' - p.offset) (payload.drop p.offset)]
        rw [e2]
      have e5 : flat chunks' = payload.drop off' := List.append_cancel_left e4
      exact ⟨Or.inr ⟨hrl, hF3, hF1, hF4, rfl⟩, e5, hF6, hF7⟩
  · -- the buffer is complete: the payload is handed to the caller
    have hr : bodyPhase p chunks =
        (Except.ok buf', { p with reading_length := true, offset := 0, buffer := [] },
          chunks') := by
      simp [bodyPhase, hfl]
    obtain ⟨e, he1, he2, he3, he4⟩ := spT buf' off' chunks' hfl
    have hlen0 : e.length = 0 := by
      have h9 := congrArg List.length (he1.symm.trans hch)
      rw [List.length_append] at h9
      omega
    have he0 : e = [] := List.eq_nil_of_length_eq_zero hlen0
    refine ⟨?_, ?_⟩
    · intro b q qchunks heq
      rw [hr] at heq
      simp only [Prod.mk.injEq, Except.ok.injEq] at heq
      obtain ⟨h0, h1, h2⟩ := heq
      subst h0; subst h1; subst h2
      exact ⟨he3, rfl, rfl, rfl, he2.trans he0⟩
    · intro q qchunks heq
      rw [hr] at heq
      simp at heq

theorem receive_step (payload : List Nat) (p : BufferOffset) (rem : List Nat)
    (chunks : List (List Nat))
    (hlen : payload.length < 4294967296)
    (hinv : Inv payload p rem) (hch : flat chunks = rem) :
    (∀ b p' chunks', receive_raw p chunks = (Except.ok b, p', chunks') →
       b = payload ∧ p'.reading_length = true ∧ p'.offset = 0 ∧ p'.buffer = [] ∧
       flat chunks' = []) ∧
    (∀ p' chunks', receive_raw p chunks = (Except.error (), p', chunks') →
       ∃ rem', Inv payload p' rem' ∧ flat chunks' = rem' ∧
         chunks'.length < chunks.length) := by
  rcases hinv with ⟨hA1, hA2, hA3, hA4, hA5⟩ | ⟨hB1, hB2, hB3, hB4, hB5⟩
  · -- phase A: filling the 4-byte length staging area
    have hne : chunks ≠ [] := by
      intro hcon
      rw [hcon, flat_nil] at hch
      have h9 := congrArg List.length hch
      rw [hA5, List.length_append, List.length_drop, leBytes4_length] at h9
      simp at h9
      omega
    obtain ⟨spT, spF⟩ := fillLoop_spec (p.length.length + 1) chunks p.length p.offset
      (leBytes4 payload.length)
      (by rw [hA3, leBytes4_length]) (by rw [leBytes4_length]; omega) hA4
      (Or.inl ⟨payload, by rw [hch, hA5]⟩) (by rw [leBytes4_length, hA3]; omega)
    rcases hfl : fillLoop (p.length.length + 1) p.length p.offset chunks
      with ⟨done, buf', off', chunks₁⟩
    cases done
    · -- would-block while reading the length prefix
      have hr : receive_raw p chunks =
          (Except.error (), { p with length := buf', offset := off' }, chunks₁) := by
        simp [receive_raw, hA1, hfl]
      obtain ⟨hF1, hF2, hF3, hF4, hF5, hF6, hF7⟩ := spF buf' off' chunks₁ hfl
      rw [leBytes4_length] at hF3
      refine ⟨?_, ?_⟩
      · intro b q qchunks heq
        rw [hr] at heq
        simp at heq
      · intro q qchunks heq
        rw [hr] at heq
        simp only [Prod.mk.injEq] at heq
        obtain ⟨-, h1, h2⟩ := heq
        subst h1; subst h2
        refine ⟨(leBytes4 payload.length).drop off' ++ payload,
          Or.inl ⟨hA1, hF3, by rw [hF1, leBytes4_length], hF4, rfl⟩, ?_, hF7 hne⟩
        have e2 : ((leBytes4 payload.length).drop p.offset).drop (off' - p.offset) =
            (leBytes4 payload.length).drop off' := by
          rw [List.drop_drop]
          congr 1
          omega
        have e4 : ((leBytes4 payload.length).drop p.offset).take (off' - p.offset) ++
              flat chunks₁ =
            ((leBytes4 payload.length).drop p.offset).take (off' - p.offset) ++
              ((leBytes4 payload.length).drop off' ++ payload) := by
          rw [← hF5, hch, hA5]
          conv_lhs => rw [← List.take_append_drop (off' - p.offset)
            ((leBytes4 payload.length).drop p.offset)]
          rw [e2, List.append_assoc]
        exact List.append_cancel_left e4
    · -- the length prefix is complete: switch to the body in the same call
      obtain ⟨e, he1, he2, he3, he4⟩ := spT buf' off' chunks₁ hfl
      subst he3
      have hpay : e = payload := by
        have h9 : (leBytes4 payload.length).drop p.offset ++ e =
            (leBytes4 payload.length).drop p.offset ++ payload := by
          rw [← he1, hch, hA5]
        exact List.append_cancel_left h9
      rw [hpay] at he2
      have hr : receive_raw p chunks =
          bodyPhase { reading_length := false, offset := 0, length := leBytes4 payload.length,
                      buffer := List.replicate payload.length 0 } chunks₁ := by
        simp [receive_raw, hA1, hfl, fromLE_leBytes4 hlen]
      obtain ⟨okB, errB⟩ := bodyPhase_step payload
        { reading_length := false, offset := 0, length := leBytes4 payload.length,
          buffer := List.replicate payload.length 0 } chunks₁
        rfl (by simp) (by simp) rfl (by rw [he2, List.drop_zero])
      refine ⟨?_, ?_⟩
      · intro b q qchunks heq
        rw [hr] at heq
        exact okB b q qchunks heq
      · intro q qchunks heq
        rw [hr] at heq
        obtain ⟨hI, hfl2, hc1, hc2⟩ := errB q qchunks heq
        refine ⟨payload.drop q.offset, hI, hfl2, ?_⟩
        have hposc : 0 < chunks.length := List.length_pos.mpr hne
        by_cases hc0 : chunks₁ = []
        · rw [hc0] at hc1
          simp only [List.length_nil] at hc1
          omega
        · have := hc2 hc0
          omega
  · -- phase B: filling the body buffer
    have hch2 : flat chunks = payload.drop p.offset := hch.trans hB5
    have hne : chunks ≠ [] := by
      intro hcon
      rw [hcon, flat_nil] at hch2
      have h9 := congrArg List.length hch2
      rw [List.length_drop] at h9
      simp at h9
      omega
    have hr : receive_raw p chunks = bodyPhase p chunks := by
      simp [receive_raw, hB1]
    obtain ⟨okB, errB⟩ := bodyPhase_step payload p chunks hB1 (by omega) hB3 hB4 hch2
    refine ⟨?_, ?_⟩
    · intro b q qchunks heq
      rw [hr] at heq
      exact okB b q qchunks heq
    · intro q qchunks heq
      rw [hr] at heq
      obtain ⟨hI, hfl2, hc1, hc2⟩ := errB q qchunks heq
      exact ⟨payload.drop q.offset, hI, hfl2, hc2 hne⟩

theorem drive_spec (payload : List Nat) (hlen : payload.length < 4294967296) :
    ∀ (fuel : Nat) (p : BufferOffset) (rem : List Nat) (chunks : List (List Nat)),
    Inv payload p rem → flat chunks = rem → chunks.length < fuel →
    ∃ k pF chF, k < fuel ∧
      drive fuel p chunks =
        (List.replicate k (Except.error ()) ++ [Except.ok payload], pF, chF) ∧
      pF.reading_length = true ∧ pF.offset = 0 ∧ pF.buffer = [] ∧ flat chF = [] := by
  intro fuel
  induction fuel with
  | zero =>
    intro p rem chunks _ _ h
    omega
  | succ fuel ih =>
    intro p rem chunks hinv hch hcount
    obtain ⟨okS, errS⟩ := receive_step payload p rem chunks hlen hinv hch
    rcases hrc : receive_raw p chunks with ⟨r, p', chunks'⟩
    match r with
    | Except.ok b =>
      obtain ⟨hb, h1, h2, h3, h4⟩ := okS b p' chunks' hrc
      subst hb
      refine ⟨0, p', chunks', by omega, ?_, h1, h2, h3, h4⟩
      simp [drive, hrc]
    | Except.error u =>
      cases u
      obtain ⟨rem', hinv', hch', hlt⟩ := errS p' chunks' hrc
      obtain ⟨k, pF, chF, hk, hdr, hf1, hf2, hf3, hf4⟩ :=
        ih p' rem' chunks' hinv' hch' (by omega)
      refine ⟨k + 1, pF, chF, by omega, ?_, hf1, hf2, hf3, hf4⟩
      simp [drive, hrc, hdr, List.replicate_succ]

/-- C1: framing a payload as `send_raw` does and feeding the bytes to
`receive_raw` across repeated calls — split into sub-chunks of arbitrary
sizes with interleaved zero-byte no-data reads — yields exactly one
successful result whose bytes equal the payload; every other call returns a
would-block error, and afterwards the connection is back in length-reading
mode with offset 0 (and an empty body buffer). -/
theorem frame_roundtrip (payload : List Nat) (chunks : List (List Nat))
    (hlen : payload.length < 4294967296)
    (hsplit : flat chunks = sendRawBytes payload) :
    ∃ k pF chF, k ≤ chunks.length ∧
      drive (chunks.length + 1) initConn chunks =
        (List.replicate k (Except.error ()) ++ [Except.ok payload], pF, chF) ∧
      pF.reading_length = true ∧ pF.offset = 0 ∧ pF.buffer = [] ∧ flat chF = [] := by
  have hinv : Inv payload initConn (leBytes4 payload.length ++ payload) :=
    Or.inl ⟨rfl, by decide, by decide, rfl, by simp [initConn]⟩
  have hch : flat chunks = leBytes4 payload.length ++ payload := by
    rw [hsplit, sendRawBytes, Nat.mod_eq_of_lt hlen]
  obtain ⟨k, pF, chF, hk, hdr, h1, h2, h3, h4⟩ :=
    drive_spec payload hlen (chunks.length + 1) initConn
      (leBytes4 payload.length ++ payload) chunks hinv hch (by omega)
  exact ⟨k, pF, chF, by omega, hdr, h1, h2, h3, h4⟩

theorem frame_roundtrip_witness :
    ([1, 0, 2, 0] : List Nat).length < 4294967296 ∧
    flat [[4, 0], [], [0, 0, 1], [0, 2, 0]] = sendRawBytes [1, 0, 2, 0] ∧
    (∃ k pF chF, k ≤ ([[4, 0], [], [0, 0, 1], [0, 2, 0]] : List (List Nat)).length ∧
      drive (([[4, 0], [], [0, 0, 1], [0, 2, 0]] : List (List Nat)).length + 1) initConn
          [[4, 0], [], [0, 0, 1], [0, 2, 0]] =
        (List.replicate k (Except.error ()) ++ [Except.ok [1, 0, 2, 0]], pF, chF) ∧
      pF.reading_length = true ∧ pF.offset = 0 ∧ pF.buffer = [] ∧ flat chF = []) :=
  ⟨by decide, by decide, frame_roundtrip [1, 0, 2, 0] [[4, 0], [], [0, 0, 1], [0, 2, 0]]
    (by decide) (by decide)⟩

/-- Invariant for a connection that has so far consumed only `p.offset`
bytes of a frame whose length prefix is still incomplete: `chunks` holds the
not-yet-consumed part of the partial prefix `bytes`. -/
def InvPartialLen (bytes : List Nat) (p : BufferOffset) (chunks : List (List Nat)) : Prop :=
  p.reading_length = true ∧ p.offset ≤ bytes.length ∧ p.length.length = 4 ∧
  p.length.take p.offset = bytes.take p.offset ∧ flat chunks = bytes.drop p.offset

theorem partialLen_step (bytes : List Nat) (hlt : bytes.length < 4)
    (p : BufferOffset) (chunks : List (List Nat))
    (hinv : InvPartialLen bytes p chunks) :
    ∃ p' chunks', receive_raw p chunks = (Except.error (), p', chunks') ∧
      InvPartialLen bytes p' chunks' ∧ chunks'.length ≤ chunks.length ∧
      (chunks ≠ [] → chunks'.length < chunks.length) := by
  obtain ⟨h1, h2, h3, h4, h5⟩ := hinv
  have htl : (bytes ++ List.replicate (4 - bytes.length) 0).length = 4 := by
    rw [List.length_append, List.length_replicate]
    omega
  have hpadne : (List.replicate (4 - bytes.length) 0 : List Nat) ≠ [] := by
    intro hcon
    have h9 := congrArg List.length hcon
    rw [List.length_replicate, List.length_nil] at h9
    omega
  obtain ⟨spT, spF⟩ := fillLoop_spec (p.length.length + 1) chunks p.length p.offset
    (bytes ++ List.replicate (4 - bytes.length) 0)
    (by rw [htl, h3]) (by rw [htl]; omega)
    (by rw [List.take_append_of_le_length h2]; exact h4)
    (Or.inr ⟨List.replicate (4 - bytes.length) 0,
      by rw [List.drop_append_of_le_length h2, h5], hpadne⟩)
    (by rw [htl, h3]; omega)
  rcases hfl : fillLoop (p.length.length + 1) p.length p.offset chunks
    with ⟨done, buf', off', chunks'⟩
  cases done
  · have hr : receive_raw p chunks =
        (Except.error (), { p with length := buf', offset := off' }, chunks') := by
      simp [receive_raw, h1, hfl]
    obtain ⟨hF1, hF2, hF3, hF4, hF5, hF6, hF7⟩ := spF buf' off' chunks' hfl
    rw [htl] at hF3
    rw [htl] at hF1
    have hoffb : off' ≤ bytes.length := by
      have h9 : (List.drop p.offset bytes).length =
          ((List.drop p.offset (bytes ++ List.replicate (4 - bytes.length) 0)).take
              (off' - p.offset)).length + (flat chunks').length := by
        rw [← List.length_append, ← hF5, h5]
      rw [List.length_take, List.length_drop, List.length_drop, htl] at h9
      omega
    have e0 : ((bytes ++ List.replicate (4 - bytes.length) 0).drop p.offset).take
          (off' - p.offset) = (bytes.drop p.offset).take (off' - p.offset) := by
      rw [List.drop_append_of_le_length h2,
        List.take_append_of_le_length (by rw [List.length_drop]; omega)]
    have e2 : (bytes.drop p.offset).drop (off' - p.offset) = bytes.drop off' := by
      rw [List.drop_drop]
      congr 1
      omega
    have e4 : (bytes.drop p.offset).take (off' - p.offset) ++ flat chunks' =
        (bytes.drop p.offset).take (off' - p.offset) ++ bytes.drop off' := by
      rw [← e0, ← hF5, h5]
      conv_lhs => rw [← List.take_append_drop (off' - p.offset) (bytes.drop p.offset)]
      rw [e2, e0]
    refine ⟨_, chunks', hr, ⟨?_, ?_, ?_, ?_, ?_⟩, hF6, hF7⟩
    · exact h1
    · exact hoffb
    · exact hF1
    · show buf'.take off' = bytes.take off'
      rw [hF4, List.take_append_of_le_length hoffb]
    · show flat chunks' = bytes.drop off'
      exact List.append_cancel_left e4
  · obtain ⟨e, he1, -, -, -⟩ := spT buf' off' chunks' hfl
    have h9 : (bytes.drop p.offset).length =
        ((bytes ++ List.replicate (4 - bytes.length) 0).drop p.offset ++ e).length := by
      rw [← h5, he1]
    rw [List.length_append, List.length_drop, List.length_drop, htl] at h9
    omega

theorem partialLen_drive (bytes : List Nat) (hlt : bytes.length < 4) :
    ∀ (fuel : Nat) (p : BufferOffset) (chunks : List (List Nat)),
    InvPartialLen bytes p chunks → chunks.length ≤ fuel →
    ∃ pF, drive fuel p chunks = (List.replicate fuel (Except.error ()), pF, []) ∧
      InvPartialLen bytes pF [] := by
  intro fuel
  induction fuel with
  | zero =>
    intro p chunks hinv hc
    have h0 : chunks = [] := List.eq_nil_of_length_eq_zero (by omega)
    subst h0
    exact ⟨p, by simp [drive], hinv⟩
  | succ fuel ih =>
    intro p chunks hinv hc
    obtain ⟨p', chunks', hrc, hinv', hle, hstrict⟩ := partialLen_step bytes hlt p chunks hinv
    have hcnt : chunks'.length ≤ fuel := by
      by_cases hc0 : chunks = []
      · subst hc0
        simp only [List.length_nil] at hle
        omega
      · have := hstrict hc0
        omega
    obtain ⟨pF, hdr, hinvF⟩ := ih p' chunks' hinv' hcnt
    refine ⟨pF, ?_, hinvF⟩
    simp [drive, hrc, hdr, List.replicate_succ]

/-- C7: while fewer than 4 bytes of the length prefix have arrived, every
call of `receive_raw` returns a would-block error and yields no payload; the
stored offset equals the number of prefix bytes consumed so far and those
bytes are kept in the staging area, so a later call resumes where the
previous one stopped, and a partial prefix is never treated as complete. -/
theorem partial_length_prefix (bytes : List Nat) (chunks : List (List Nat)) (fuel : Nat)
    (hlt : bytes.length < 4) (hch : flat chunks = bytes) (hfu : chunks.length ≤ fuel) :
    ∃ pF, drive fuel initConn chunks = (List.replicate fuel (Except.error ()), pF, []) ∧
      pF.reading_length = true ∧ pF.offset = bytes.length ∧
      pF.length.take bytes.length = bytes := by
  have hinv : InvPartialLen bytes initConn chunks :=
    ⟨rfl, by simp [initConn], by decide, by simp [initConn], by simpa [initConn] using hch⟩
  obtain ⟨pF, hdr, g1, g2, g3, g4, g5⟩ := partialLen_drive bytes hlt fuel initConn chunks hinv hfu
  have hoff : pF.offset = bytes.length := by
    have h9 := congrArg List.length g5
    rw [flat_nil, List.length_nil, List.length_drop] at h9
    omega
  refine ⟨pF, hdr, g1, hoff, ?_⟩
  rw [hoff] at g4
  rw [g4, List.take_length]

theorem partial_length_prefix_witness :
    ([4, 0] : List Nat).length < 4 ∧ flat [[4], [], [0]] = [4, 0] ∧
    ([[4], [], [0]] : List (List Nat)).length ≤ 3 ∧
    (∃ pF, drive 3 initConn [[4], [], [0]] = (List.replicate 3 (Except.error ()), pF, []) ∧
      pF.reading_length = true ∧ pF.offset = ([4, 0] : List Nat).length ∧
      pF.length.take ([4, 0] : List Nat).length = [4, 0]) :=
  ⟨by decide, by decide, by decide,
    partial_length_prefix [4, 0] [[4], [], [0]] 3 (by decide) (by decide) (by decide)⟩

/-- C8: `send_raw` writes exactly a 4-byte little-endian length prefix equal
to `data.len()`, followed by all of `data`, in that order. -/
theorem send_raw_format (data : List Nat) (h : data.length < 4294967296) :
    sendRawBytes data = leBytes4 data.length ++ data ∧
    (leBytes4 data.length).length = 4 ∧
    fromLEBytes (leBytes4 data.length) = data.length ∧
    (sendRawBytes data).take 4 = leBytes4 data.length ∧
    (sendRawBytes data).drop 4 = data := by
  have h1 : sendRawBytes data = leBytes4 data.length ++ data := by
    rw [sendRawBytes, Nat.mod_eq_of_lt h]
  refine ⟨h1, leBytes4_length _, fromLE_leBytes4 h, ?_, ?_⟩
  · rw [h1]
    exact List.take_left' (leBytes4_length _)
  · rw [h1]
    exact List.drop_left' (leBytes4_length _)

theorem send_raw_format_witness :
    ([42] : List Nat).length < 4294967296 ∧
    (sendRawBytes [42] = leBytes4 ([42] : List Nat).length ++ [42] ∧
      (leBytes4 ([42] : List Nat).length).length = 4 ∧
      fromLEBytes (leBytes4 ([42] : List Nat).length) = ([42] : List Nat).length ∧
      (sendRawBytes [42]).take 4 = leBytes4 ([42] : List Nat).length ∧
      (sendRawBytes [42]).drop 4 = [42]) :=
  ⟨by decide, send_raw_format [42] (by decide)⟩

/-- The connection pool (`Context` of `src/auth.rs`): the connections in
use, the active-connection cursor `i`, and the deferred-close flag. -/
structure Ctx (α : Type) where
  conns : List α
  i : Nat
  close_conn : Bool

/-- `Vec::swap_remove(i)`: overwrite position `i` with the last element and
drop the last position (for `i` in bounds; on an empty vector there is
nothing to model, the in-bounds hypothesis excludes it). -/
def swapRemove {α : Type} (l : List α) (i : Nat) : List α :=
  match l.getLast? with
  | none => l
  | some last => (l.set i last).dropLast

/-- `Context::can_advance`: the cursor is within the pool. -/
def can_advance {α : Type} (c : Ctx α) : Bool := decide (c.i < c.conns.length)

/-- `Context::advance`: a connection marked for removal is swap-removed and
the cursor stays (the swapped-in connection still has to be visited);
otherwise the cursor moves on.  The flag is false after either branch. -/
def advance {α : Type} (c : Ctx α) : Ctx α :=
  if c.close_conn then { c with conns := swapRemove c.conns c.i, close_conn := false }
  else { c with i := c.i + 1 }

/-- One pass of `Server::iteration`'s connection loop after `reset`: while
`can_advance`, drain the active connection — the drain's net effect on the
close flag is abstracted by the decision `d` — then `advance`.  Returns the
list of visited connections in order together with the final pool.  `fuel`
bounds the loop; `conns.length + 1` always suffices. -/
def runPass {α : Type} (d : α → Bool) : Nat → Ctx α → List α × Ctx α
  | 0, c => ([], c)
  | fuel + 1, c =>
    if h : c.i < c.conns.length then
      let a := c.conns.get ⟨c.i, h⟩
      let r := runPass d fuel (advance { c with close_conn := d a })
      (a :: r.1, r.2)
    else ([], c)

theorem advance_marked {α : Type} (conns : List α) (i : Nat) :
    advance ⟨conns, i, true⟩ = ⟨swapRemove conns i, i, false⟩ := rfl

theorem advance_unmarked {α : Type} (conns : List α) (i : Nat) :
    advance ⟨conns, i, false⟩ = ⟨conns, i + 1, false⟩ := rfl

theorem runPass_cons {α : Type} (d : α → Bool) (fuel : Nat) (c : Ctx α)
    (h : c.i < c.conns.length) :
    runPass d (fuel + 1) c =
      ((c.conns.get ⟨c.i, h⟩) ::
          (runPass d fuel (advance { c with close_conn := d (c.conns.get ⟨c.i, h⟩) })).1,
        (runPass d fuel (advance { c with close_conn := d (c.conns.get ⟨c.i, h⟩) })).2) := by
  simp [runPass, h]

theorem runPass_stop {α : Type} (d : α → Bool) (fuel : Nat) (c : Ctx α)
    (h : ¬ c.i < c.conns.length) :
    runPass d (fuel + 1) c = ([], c) := by
  simp [runPass, h]

theorem get_append_self {α : Type} (pre t : List α) (a : α)
    (h : pre.length < (pre ++ a :: t).length) :
    (pre ++ a :: t).get ⟨pre.length, h⟩ = a := by
  rw [List.get_eq_getElem, List.getElem_append_right (le_refl pre.length)]
  simp

theorem swapRemove_eq_of_getLast {α : Type} {l : List α} {x : α}
    (h : l.getLast? = some x) (i : Nat) :
    swapRemove l i = (l.set i x).dropLast := by
  unfold swapRemove
  rw [h]

/-- Swap-removing the element at position `pre.length` of `pre ++ a :: t`
keeps the prefix `pre` untouched and leaves, after the prefix, exactly the
elements of `t` in some order. -/
theorem swapRemove_append {α : Type} (pre t : List α) (a : α) :
    ∃ mid, swapRemove (pre ++ a :: t) pre.length = pre ++ mid ∧ mid.Perm t := by
  have hne : (a :: t) ≠ ([] : List α) := by simp
  have hlast : (pre ++ a :: t).getLast? = some ((a :: t).getLast hne) := by
    rw [List.getLast?_append, List.getLast?_eq_getLast (a :: t) hne]
    rfl
  have hsw := swapRemove_eq_of_getLast hlast pre.length
  rw [List.set_append_right _ _ (le_refl pre.length), Nat.sub_self] at hsw
  cases t with
  | nil =>
    refine ⟨[], ?_, List.Perm.refl []⟩
    rw [hsw]
    simp
  | cons b t' =>
    refine ⟨(a :: b :: t').getLast hne :: (b :: t').dropLast, ?_, ?_⟩
    · rw [hsw]
      show (pre ++ ((a :: b :: t').getLast hne :: b :: t')).dropLast = _
      rw [List.dropLast_append_of_ne_nil _ (by simp)]
      rfl
    · have hglast : (a :: b :: t').getLast hne = (b :: t').getLast (by simp) :=
        List.getLast_cons (by simp)
      rw [hglast]
      have hsplit : (b :: t').dropLast ++ [(b :: t').getLast (by simp)] = b :: t' :=
        List.dropLast_append_getLast (by simp)
      have hperm := (List.perm_append_singleton ((b :: t').getLast (by simp))
        (b :: t').dropLast).symm
      rw [hsplit] at hperm
      exact hperm

/-- Core property of a pass started at cursor `pre.length` over the pool
`pre ++ rest`: the pass visits exactly the elements of `rest` (each once, in
some order), never touches `pre`, ends with the cursor one past the end, the
flag cleared, and a pool whose tail holds exactly the unmarked elements of
`rest`. -/
theorem runPass_spec {α : Type} (d : α → Bool) :
    ∀ (fuel : Nat) (pre rest : List α), rest.length < fuel →
    ∃ rest',
      (runPass d fuel ⟨pre ++ rest, pre.length, false⟩).1.Perm rest ∧
      (runPass d fuel ⟨pre ++ rest, pre.length, false⟩).2 =
        ⟨pre ++ rest', (pre ++ rest').length, false⟩ ∧
      rest'.Perm (rest.filter (fun a => ! d a)) := by
  intro fuel
  induction fuel with
  | zero =>
    intro pre rest h
    omega
  | succ fuel ih =>
    intro pre rest hlen
    match rest with
    | [] =>
      have hg : ¬ ((⟨pre ++ [], pre.length, false⟩ : Ctx α).i <
          (⟨pre ++ [], pre.length, false⟩ : Ctx α).conns.length) := by
        simp
      rw [runPass_stop d fuel _ hg]
      exact ⟨[], by simp, by simp, by simp⟩
    | a :: t =>
      have hg : ((⟨pre ++ a :: t, pre.length, false⟩ : Ctx α).i <
          (⟨pre ++ a :: t, pre.length, false⟩ : Ctx α).conns.length) := by
        simp
      rw [runPass_cons d fuel _ hg]
      have hga : (pre ++ a :: t).get ⟨pre.length, hg⟩ = a := get_append_self pre t a hg
      by_cases hda : d a
      · -- marked for removal: swap-remove, cursor stays
        have hadv : advance { (⟨pre ++ a :: t, pre.length, false⟩ : Ctx α) with
              close_conn := d ((pre ++ a :: t).get ⟨pre.length, hg⟩) } =
            ⟨swapRemove (pre ++ a :: t) pre.length, pre.length, false⟩ := by
          rw [hga, hda]
          exact advance_marked _ _
        obtain ⟨mid, hmid, hmidperm⟩ := swapRemove_append pre t a
        have hlenmid : mid.length < fuel := by
          have := hmidperm.length_eq
          simp at hlen
          omega
        obtain ⟨rest', P1, P2, P3⟩ := ih pre mid hlenmid
        rw [hadv, hmid]
        refine ⟨rest', ?_, P2, ?_⟩
        · rw [hga]
          exact (P1.trans hmidperm).cons a
        · refine P3.trans ?_
          have hfil : (a :: t).filter (fun x => ! d x) = t.filter (fun x => ! d x) := by
            simp [List.filter_cons, hda]
          rw [hfil]
          exact hmidperm.filter _
      · -- not marked: cursor moves on
        have hadv : advance { (⟨pre ++ a :: t, pre.length, false⟩ : Ctx α) with
              close_conn := d ((pre ++ a :: t).get ⟨pre.length, hg⟩) } =
            ⟨pre ++ a :: t, pre.length + 1, false⟩ := by
          rw [hga]
          rw [show d a = false by simp [hda]]
          exact advance_unmarked _ _
        have hstate : (⟨pre ++ a :: t, pre.length + 1, false⟩ : Ctx α) =
            ⟨(pre ++ [a]) ++ t, (pre ++ [a]).length, false⟩ := by
          simp
        have hlent : t.length < fuel := by
          simp at hlen
          omega
        obtain ⟨rest', P1, P2, P3⟩ := ih (pre ++ [a]) t hlent
        rw [hadv, hstate]
        refine ⟨a :: rest', ?_, ?_, ?_⟩
        · rw [hga]
          exact P1.cons a
        · rw [P2]
          simp
        · have hfil : (a :: t).filter (fun x => ! d x) = a :: t.filter (fun x => ! d x) := by
            simp [List.filter_cons, hda]
          rw [hfil]
          exact P3.cons a

/-- C2: within one pass of the pool no connection is skipped and none is
visited twice — the visited list is a permutation of the pool, the surviving
pool consists exactly of the unmarked connections, `advance` on a marked
connection swap-removes it without moving the cursor, `advance` on an
unmarked connection only moves the cursor, and the removal flag is false
after every `advance`; for pools of any size and any removal pattern. -/
theorem pass_visits_each_once {α : Type} (d : α → Bool) (conns : List α) :
    (∃ rest',
      (runPass d (conns.length + 1) ⟨conns, 0, false⟩).1.Perm conns ∧
      (runPass d (conns.length + 1) ⟨conns, 0, false⟩).2 =
        ⟨rest', rest'.length, false⟩ ∧
      rest'.Perm (conns.filter (fun a => ! d a))) ∧
    (∀ (cs : List α) (i : Nat), advance ⟨cs, i, true⟩ = ⟨swapRemove cs i, i, false⟩) ∧
    (∀ (cs : List α) (i : Nat), advance ⟨cs, i, false⟩ = ⟨cs, i + 1, false⟩) ∧
    (∀ c : Ctx α, (advance c).close_conn = false) := by
  refine ⟨?_, advance_marked, advance_unmarked, ?_⟩
  · obtain ⟨rest', h1, h2, h3⟩ := runPass_spec d (conns.length + 1) [] conns (by omega)
    simp only [List.nil_append, List.length_nil] at h1 h2 h3
    exact ⟨rest', h1, h2, h3⟩
  · intro c
    rcases c with ⟨cs, i, cc⟩
    cases cc <;> simp [advance]

/-- The error kinds the event loop distinguishes when `receive` fails
(`std::io::ErrorKind`: `WouldBlock`, `ConnectionReset`, anything else). -/
inductive ErrKind where
  | wouldBlock : ErrKind
  | connReset : ErrKind
  | other : Nat → ErrKind
deriving DecidableEq

/-- The error arm of the inner drain loop of `Server::iteration`:
`if kind != WouldBlock { if kind != ConnectionReset { dbg!(err); } close_conn(); }`
followed by `break`.  Result: (logged, marked for close). -/
def handleErr (e : ErrKind) : Bool × Bool :=
  if e ≠ ErrKind.wouldBlock then
    (if e ≠ ErrKind.connReset then true else false, true)
  else (false, false)

/-- A scripted connection for the event loop: the messages its drain
delivers, then the receive error that ends the drain. -/
structure SConn where
  msgs : List Nat
  err : ErrKind

/-- C5: a would-block error ends the drain with no close marking and no
logging; a connection-reset error closes without logging; any other error
logs and closes; and in every case the pass continues and still visits every
connection of the pool (one bad connection never aborts the pass). -/
theorem drain_error_taxonomy :
    handleErr ErrKind.wouldBlock = (false, false) ∧
    handleErr ErrKind.connReset = (false, true) ∧
    (∀ n, handleErr (ErrKind.other n) = (true, true)) ∧
    (∀ conns : List SConn,
      (runPass (fun c => (handleErr c.err).2) (conns.length + 1)
          ⟨conns, 0, false⟩).1.Perm conns) := by
  refine ⟨by simp [handleErr], by simp [handleErr], ?_, ?_⟩
  · intro n
    simp [handleErr]
  · intro conns
    obtain ⟨rest', h1, h2, h3⟩ :=
      runPass_spec (fun c : SConn => (handleErr c.err).2) (conns.length + 1) [] conns
        (by omega)
    simpa using h1

/-- Checked variant of `Context::get` / `get_mut` (`get_unchecked(self.i)`):
`none` models an out-of-bounds unchecked access. -/
def getCk {α : Type} (c : Ctx α) : Option α := c.conns[c.i]?

/-- Checked `advance`: `none` where the Rust `swap_remove` would panic
because the cursor is out of bounds. -/
def advanceCk {α : Type} (c : Ctx α) : Option (Ctx α) :=
  if c.close_conn then
    if c.i < c.conns.length then
      some { c with conns := swapRemove c.conns c.i, close_conn := false }
    else none
  else some { c with i := c.i + 1 }

/-- The pass with every unchecked access checked: the receive on the active
connection, the accesses handler code makes while the callback runs
(send/peer_addr/local_addr all index with the same cursor), and the
swap-remove inside `advance`. -/
def runPassCk {α : Type} (d : α → Bool) : Nat → Ctx α → Option (List α × Ctx α)
  | 0, c => some ([], c)
  | fuel + 1, c =>
    if can_advance c then
      match getCk c with
      | none => none
      | some a =>
        match getCk { c with close_conn := d a } with
        | none => none
        | some _ =>
          match advanceCk { c with close_conn := d a } with
          | none => none
          | some c2 =>
            match runPassCk d fuel c2 with
            | none => none
            | some r => some (a :: r.1, r.2)
    else some ([], c)

theorem runPassCk_eq {α : Type} (d : α → Bool) :
    ∀ (fuel : Nat) (c : Ctx α), runPassCk d fuel c = some (runPass d fuel c) := by
  intro fuel
  induction fuel with
  | zero =>
    intro c
    rfl
  | succ fuel ih =>
    intro c
    by_cases hlt : c.i < c.conns.length
    · have hca : can_advance c = true := by
        simp [can_advance, hlt]
      have hget : getCk c = some (c.conns.get ⟨c.i, hlt⟩) := by
        simp [getCk, List.getElem?_eq_getElem hlt]
      have hget2 : getCk { c with close_conn := d (c.conns.get ⟨c.i, hlt⟩) } =
          some (c.conns.get ⟨c.i, hlt⟩) := hget
      have hadv : advanceCk { c with close_conn := d (c.conns.get ⟨c.i, hlt⟩) } =
          some (advance { c with close_conn := d (c.conns.get ⟨c.i, hlt⟩) }) := by
        cases hda : d (c.conns.get ⟨c.i, hlt⟩) <;>
          simp [advanceCk, advance, hda, hlt]
      rw [runPass_cons d fuel c hlt]
      simp only [List.get_eq_getElem] at hget hget2 hadv
      simp [runPassCk, hca, hget, hget2, hadv, ih]
    · have hca : can_advance c = false := by
        simp [can_advance, hlt]
      rw [runPass_stop d fuel c hlt]
      simp [runPassCk, hca]

/-- C6: every unchecked access of an iteration pass happens with the cursor
in bounds — the fully checked pass never fails and agrees with the unchecked
one (so `get`/`get_mut` and the `swap_remove` in `advance` are always in
bounds), and the unchecked accessor succeeds exactly when `can_advance`
holds, i.e. exactly when `0 ≤ cursor < number of connections`. -/
theorem unchecked_accesses_in_bounds {α : Type} (d : α → Bool) (fuel : Nat)
    (conns : List α) :
    runPassCk d fuel ⟨conns, 0, false⟩ = some (runPass d fuel ⟨conns, 0, false⟩) ∧
    (∀ c : Ctx α, (getCk c).isSome = can_advance c) := by
  refine ⟨runPassCk_eq d fuel _, ?_⟩
  intro c
  by_cases hlt : c.i < c.conns.length
  · simp [getCk, can_advance, hlt, List.getElem?_eq_getElem hlt]
  · simp [getCk, can_advance, hlt, List.getElem?_eq_none (le_of_not_lt hlt)]

/-- A connection as `Context::broadcast` sees it: whether its raw send
fails, and the log of frames written to it so far. -/
structure BConn where
  failSend : Bool
  written : List (List Nat)
deriving DecidableEq

/-- `Connection::send_raw` as used by `broadcast`: a failing transport
writes nothing and reports the error, otherwise the frame is appended to
the connection's write log. -/
def sendRawB (c : BConn) (data : List Nat) : Except Unit BConn :=
  if c.failSend then Except.error () else Except.ok { c with written := c.written ++ [data] }

/-- The `for conn in ... { conn.send_raw(&data)?; }` loop of `broadcast`:
the `?` propagates the first failure, leaving that connection and all later
ones untouched. -/
def sendAll (data : List Nat) : List BConn → Bool × List BConn
  | [] => (true, [])
  | c :: rest =>
    match sendRawB c data with
    | Except.error _ => (false, c :: rest)
    | Except.ok c' =>
      match sendAll data rest with
      | (ok, rest') => (ok, c' :: rest')

/-- `Context::broadcast`: serialize once (`ser` is the serialization
result), then write the raw frame to the connections in order.  Returns the
propagated result together with the pool as it stands afterwards. -/
def broadcast (ser : Except Unit (List Nat)) (conns : List BConn) :
    Except Unit Unit × List BConn :=
  match ser with
  | Except.error _ => (Except.error (), conns)
  | Except.ok data =>
    match sendAll data conns with
    | (true, conns') => (Except.ok (), conns')
    | (false, conns') => (Except.error (), conns')

theorem sendAll_fail (data : List Nat) :
    ∀ (pre : List BConn) (fc : BConn) (post : List BConn),
    fc.failSend = true → (∀ c ∈ pre, c.failSend = false) →
    sendAll data (pre ++ fc :: post) =
      (false, pre.map (fun c => { c with written := c.written ++ [data] }) ++ fc :: post) := by
  intro pre
  induction pre with
  | nil =>
    intro fc post hfc _
    simp only [List.nil_append, List.map_nil]
    simp only [sendAll, sendRawB, if_pos hfc]
  | cons p ps ihp =>
    intro fc post hfc hpre
    have hp : p.failSend = false := hpre p (by simp)
    have hps : ∀ c ∈ ps, c.failSend = false := fun c hc => hpre c (by simp [hc])
    simp only [List.cons_append, sendAll, sendRawB]
    rw [if_neg (by simp [hp])]
    simp only [List.append_eq]
    rw [ihp fc post hfc hps]
    simp

/-- C3 counterexample: pool = [failing connection, healthy connection],
serialization succeeds with frame [7].  The claim says the healthy second
connection must still be written; the code's `?` aborts the loop at the
first connection, so nothing is written to the second and the error is
returned. -/
theorem broadcast_aborts_on_send_failure :
    broadcast (Except.ok [7]) [⟨true, []⟩, ⟨false, []⟩] =
      (Except.error (), [⟨true, []⟩, ⟨false, []⟩]) ∧
    (broadcast (Except.ok [7]) [⟨true, []⟩, ⟨false, []⟩]).2.map BConn.written ≠
      [[], [[7]]] :=
  ⟨rfl, by decide⟩

/-- C3 as amended: a serialization failure aborts the broadcast with no
connection written; a raw-write failure on one connection also aborts the
broadcast — the failing connection and every connection after it are left
unwritten, the connections before it keep the frame, and the error is
propagated out of `broadcast`. -/
theorem broadcast_error_behaviour (data : List Nat) (pre post : List BConn) (fc : BConn)
    (hfc : fc.failSend = true) (hpre : ∀ c ∈ pre, c.failSend = false) :
    (∀ conns : List BConn, broadcast (Except.error ()) conns = (Except.error (), conns)) ∧
    broadcast (Except.ok data) (pre ++ fc :: post) =
      (Except.error (), pre.map (fun c => { c with written := c.written ++ [data] }) ++
        fc :: post) := by
  refine ⟨fun conns => rfl, ?_⟩
  simp only [broadcast]
  rw [sendAll_fail data pre fc post hfc hpre]

theorem broadcast_error_behaviour_witness :
    (⟨true, []⟩ : BConn).failSend = true ∧
    (∀ c ∈ ([⟨false, []⟩] : List BConn), c.failSend = false) ∧
    ((∀ conns : List BConn, broadcast (Except.error ()) conns = (Except.error (), conns)) ∧
      broadcast (Except.ok [7]) ([⟨false, []⟩] ++ (⟨true, []⟩ : BConn) :: []) =
        (Except.error (),
          ([⟨false, []⟩] : List BConn).map
              (fun c => { c with written := c.written ++ [[7]] }) ++
            (⟨true, []⟩ : BConn) :: [])) :=
  ⟨by decide, by decide,
    broadcast_error_behaviour [7] [⟨false, []⟩] [] ⟨true, []⟩ (by decide) (by decide)⟩

/-- The accept drain of `Server::iteration`
(`while let Ok((stream, _)) = listener.accept() { let stream =
Transport::from(stream, ...)?; let conn = Connection::from(stream)?;
ctx.push(conn) }`): each pending candidate either constructs (`Except.ok`)
or fails in `Transport::from` / `Connection::from` (`Except.error`).  The
`?` returns from `iteration` at the first failure, keeping earlier pushes
and leaving the remaining candidates unaccepted. -/
def acceptDrain {α : Type} (conns : List α) : List (Except Unit α) → Bool × List α
  | [] => (true, conns)
  | Except.ok c :: rest => acceptDrain (conns ++ [c]) rest
  | Except.error _ :: _ => (false, conns)

/-- `Server::iteration` (sleep omitted): drain the pending candidates; if a
construction failed, return the error — the message-processing pass does
not run; otherwise run one pass over the pool.  The first component is the
iteration's result (with the visited list and final pool on success), the
second the pool as left behind either way. -/
def iterationModel {α : Type} (d : α → Bool) (cands : List (Except Unit α))
    (conns : List α) : Except Unit (List α × List α) × List α :=
  match acceptDrain conns cands with
  | (false, conns') => (Except.error (), conns')
  | (true, conns') =>
    match runPass d (conns'.length + 1) ⟨conns', 0, false⟩ with
    | (visited, c') => (Except.ok (visited, c'.conns), c'.conns)

/-- C4 counterexample: pool = [1], pending candidates = [failing handshake,
good connection 7].  The claim says the remaining candidate is still
accepted during the same drain and the message-processing phase still runs;
the code's `?` makes `iteration` return the error immediately — no pass
output exists and connection 7 was never pushed (the pool is still [1]). -/
theorem iteration_aborts_on_handshake_failure :
    iterationModel (fun _ : Nat => false) [Except.error (), Except.ok 7] [1] =
      (Except.error (), [1]) := rfl

theorem acceptDrain_fail {α : Type} (post : List (Except Unit α)) :
    ∀ (pre : List α) (acc : List α),
    acceptDrain acc (pre.map Except.ok ++ Except.error () :: post) = (false, acc ++ pre) := by
  intro pre
  induction pre with
  | nil =>
    intro acc
    simp [acceptDrain]
  | cons p ps ihp =>
    intro acc
    simp only [List.map_cons, List.cons_append, acceptDrain, List.append_eq]
    rw [ihp (acc ++ [p])]
    simp

/-- C4 as amended: a transport/`Connection` construction failure makes
`iteration` return the error at once — candidates accepted before the
failure remain in the pool, the failing and all later pending candidates
are not accepted in that call, and the message-processing phase of that
call is skipped (`run` logs the error and begins a new iteration). -/
theorem iteration_abort_shape {α : Type} (d : α → Bool) (pre : List α)
    (post : List (Except Unit α)) (conns : List α) :
    iterationModel d (pre.map Except.ok ++ Except.error () :: post) conns =
      (Except.error (), conns ++ pre) := by
  simp only [iterationModel]
  rw [acceptDrain_fail post pre conns]

/-- Rust's `slice::split` on a separator byte: an empty input yields one
empty piece, a trailing separator a trailing empty piece, exactly like the
`split` iterator. -/
def splitOnByte (sep : Nat) : List Nat → List (List Nat)
  | [] => [[]]
  | x :: xs =>
    if x = sep then [] :: splitOnByte sep xs
    else
      match splitOnByte sep xs with
      | [] => [[x]]
      | y :: ys => (x :: y) :: ys

theorem splitOnByte_no_sep (sep : Nat) :
    ∀ l : List Nat, sep ∉ l → splitOnByte sep l = [l] := by
  intro l
  induction l with
  | nil =>
    intro
    rfl
  | cons x xs ih =>
    intro hmem
    have hx : ¬ (x = sep) := fun hc => hmem (by simp [hc])
    have hxs : sep ∉ xs := fun hc => hmem (by simp [hc])
    simp only [splitOnByte, if_neg hx, ih hxs]

theorem splitOnByte_append (sep : Nat) (b : List Nat) :
    ∀ a : List Nat, sep ∉ a →
    splitOnByte sep (a ++ sep :: b) = a :: splitOnByte sep b := by
  intro a
  induction a with
  | nil =>
    intro
    simp [splitOnByte]
  | cons x xs ih =>
    intro ha
    have hx : ¬ (x = sep) := fun hc => ha (by simp [hc])
    have hxs : sep ∉ xs := fun hc => ha (by simp [hc])
    simp only [List.cons_append, splitOnByte, if_neg hx, List.append_eq]
    rw [ih hxs]

/-- A UTF-8 continuation byte (0x80..=0xBF). -/
def contB (b : Nat) : Bool := decide (128 ≤ b ∧ b ≤ 191)

/-- `str::from_utf8` validity as Rust's validator checks it (RFC 3629):
ASCII; C2..DF + continuation; E0 with A0..BF; E1..EC; ED with 80..9F (no
surrogates); EE..EF; F0 with 90..BF; F1..F3; F4 with 80..8F (≤ U+10FFFF). -/
def validUtf8 : List Nat → Bool
  | [] => true
  | b :: rest =>
    if b ≤ 127 then validUtf8 rest
    else if 194 ≤ b ∧ b ≤ 223 then
      match rest with
      | b1 :: r => contB b1 && validUtf8 r
      | [] => false
    else if b = 224 then
      match rest with
      | b1 :: b2 :: r => decide (160 ≤ b1 ∧ b1 ≤ 191) && contB b2 && validUtf8 r
      | _ => false
    else if 225 ≤ b ∧ b ≤ 236 then
      match rest with
      | b1 :: b2 :: r => contB b1 && contB b2 && validUtf8 r
      | _ => false
    else if b = 237 then
      match rest with
      | b1 :: b2 :: r => decide (128 ≤ b1 ∧ b1 ≤ 159) && contB b2 && validUtf8 r
      | _ => false
    else if 238 ≤ b ∧ b ≤ 239 then
      match rest with
      | b1 :: b2 :: r => contB b1 && contB b2 && validUtf8 r
      | _ => false
    else if b = 240 then
      match rest with
      | b1 :: b2 :: b3 :: r =>
        decide (144 ≤ b1 ∧ b1 ≤ 191) && contB b2 && contB b3 && validUtf8 r
      | _ => false
    else if 241 ≤ b ∧ b ≤ 243 then
      match rest with
      | b1 :: b2 :: b3 :: r => contB b1 && contB b2 && contB b3 && validUtf8 r
      | _ => false
    else if b = 244 then
      match rest with
      | b1 :: b2 :: b3 :: r =>
        decide (128 ≤ b1 ∧ b1 ≤ 143) && contB b2 && contB b3 && validUtf8 r
      | _ => false
    else false

/-- ASCII bytes of `"GET"`. -/
def bGET : List Nat := [71, 69, 84]

/-- ASCII bytes of `"HTTP/1.1"` followed by the carriage return (the third
space-separated part of a request line ending in CRLF). -/
def bHTTP11 : List Nat := [72, 84, 84, 80, 47, 49, 46, 49, 13]

/-- ASCII bytes of `"verify"`. -/
def bverify : List Nat := [118, 101, 114, 105, 102, 121]

/-- Result of `verify::parse`: `panicked` models the Rust panic in
`path[1..]` when `path` is the empty slice (range start out of bounds). -/
inductive PRes where
  | panicked : PRes
  | failed : PRes
  | parsed : List Nat → List Nat → PRes
deriving DecidableEq

/-- `verify::parse`: first line up to the newline; split on spaces into
`GET`, the path, and the `HTTP/1.1` part (with its carriage return); slice
the path past its leading byte — a panic when the path is empty; split on
`/` into `verify`, username and session key (later path segments are never
requested from the iterator); finally both must be valid UTF-8. -/
def parse (buffer : List Nat) : PRes :=
  match splitOnByte 10 buffer with
  | [] => PRes.failed
  | first_line :: _ =>
    match splitOnByte 32 first_line with
    | [] => PRes.failed
    | p0 :: parts1 =>
      if p0 ≠ bGET then PRes.failed else
      match parts1 with
      | [] => PRes.failed
      | path :: parts2 =>
        match parts2 with
        | [] => PRes.failed
        | p2 :: _ =>
          if p2 ≠ bHTTP11 then PRes.failed else
          match path with
          | [] => PRes.panicked
          | _ :: pathTail =>
            match splitOnByte 47 pathTail with
            | [] => PRes.failed
            | q0 :: qparts1 =>
              if q0 ≠ bverify then PRes.failed else
              match qparts1 with
              | [] => PRes.failed
              | u :: qparts2 =>
                match qparts2 with
                | [] => PRes.failed
                | k :: _ =>
                  if validUtf8 u then
                    if validUtf8 k then PRes.parsed u k else PRes.failed
                  else PRes.failed

/-- The fixed response byte strings of `verify::respond`. -/
def resp400 : List Nat :=
  [72, 84, 84, 80, 47, 49, 46, 49, 32, 52, 48, 48, 32, 13, 10, 13, 10]

def resp200true : List Nat :=
  [72, 84, 84, 80, 47, 49, 46, 49, 32, 50, 48, 48, 32, 13, 10, 13, 10, 49]

def resp200false : List Nat :=
  [72, 84, 84, 80, 47, 49, 46, 49, 32, 50, 48, 48, 32, 13, 10, 13, 10, 48]

def resp500 : List Nat :=
  [72, 84, 84, 80, 47, 49, 46, 49, 32, 53, 48, 48, 32, 13, 10, 13, 10]

/-- `verify::verify`: whether the (username, session key) pair exists in the
users table; `db = none` models a lookup error (the `.ok()` on the diesel
query result). -/
def verifyDb (u k : List Nat) (db : Option (List (List Nat × List Nat))) : Option Bool :=
  db.map (fun table => table.any (fun e => decide (e.1 = u) && decide (e.2 = k)))

/-- `verify::respond`: 400 on a parse failure, 200 with body `1`/`0`
according to the lookup, 500 on a lookup error.  `none` models the panic
propagating out of `parse`. -/
def respond (buffer : List Nat) (db : Option (List (List Nat × List Nat))) :
    Option (List Nat) :=
  match parse buffer with
  | PRes.panicked => none
  | PRes.failed => some resp400
  | PRes.parsed u k =>
    match verifyDb u k db with
    | some true => some resp200true
    | some false => some resp200false
    | none => some resp500

/-- C9: the claim says `respond` returns one of four fixed byte strings for
every request buffer, with 400 when the buffer does not parse.  The code
instead panics on the malformed request line `GET  HTTP/1.1` + CRLF (two
spaces, so the path part is empty): `parse` reaches `path[1..]` with an
empty `path` and the slice indexing panics before any response is produced,
for every database state — contradicting the module's own documentation
("If the request was malformed, returns 400 Bad Request"). -/
theorem respond_panics_on_empty_path :
    parse [71, 69, 84, 32, 32, 72, 84, 84, 80, 47, 49, 46, 49, 13, 10] = PRes.panicked ∧
    ∀ db, respond [71, 69, 84, 32, 32, 72, 84, 84, 80, 47, 49, 46, 49, 13, 10] db = none :=
  ⟨rfl, fun _ => rfl⟩

/-- C10: `parse` does not require exactly two path segments after
`/verify`: for any request line `GET /verify/{u}/{k}/{anything} HTTP/1.1`
followed by CRLF (and anything after), with `u` and `k` valid UTF-8, it
returns the pair `(u, k)`, silently ignoring everything after the session
key segment — and `u` or `k` may be empty. -/
theorem parse_ignores_extra_segments (u k extra rest : List Nat)
    (hu47 : 47 ∉ u) (hu32 : 32 ∉ u) (hu10 : 10 ∉ u)
    (hk47 : 47 ∉ k) (hk32 : 32 ∉ k) (hk10 : 10 ∉ k)
    (hex32 : 32 ∉ extra) (hex10 : 10 ∉ extra)
    (huv : validUtf8 u = true) (hkv : validUtf8 k = true) :
    parse ((bGET ++ 32 :: ((47 :: (bverify ++ 47 :: (u ++ 47 :: (k ++ 47 :: extra)))) ++
      32 :: bHTTP11)) ++ 10 :: rest) = PRes.parsed u k := by
  have hpath10 : (10 : Nat) ∉ 47 :: (bverify ++ 47 :: (u ++ 47 :: (k ++ 47 :: extra))) := by
    simp [bverify, hu10, hk10, hex10]
  have hpath32 : (32 : Nat) ∉ 47 :: (bverify ++ 47 :: (u ++ 47 :: (k ++ 47 :: extra))) := by
    simp [bverify, hu32, hk32, hex32]
  have hA10 : (10 : Nat) ∉ bGET ++ 32 ::
      ((47 :: (bverify ++ 47 :: (u ++ 47 :: (k ++ 47 :: extra)))) ++ 32 :: bHTTP11) := by
    simp [bGET, bHTTP11, bverify, hu10, hk10, hex10]
  have h1 := splitOnByte_append 10 rest _ hA10
  have h2 := splitOnByte_append 32
    ((47 :: (bverify ++ 47 :: (u ++ 47 :: (k ++ 47 :: extra)))) ++ 32 :: bHTTP11) bGET
    (by simp [bGET])
  have h3 := splitOnByte_append 32 bHTTP11 _ hpath32
  have h4 : splitOnByte 32 bHTTP11 = [bHTTP11] := splitOnByte_no_sep 32 _ (by simp [bHTTP11])
  have h5 := splitOnByte_append 47 (u ++ 47 :: (k ++ 47 :: extra)) bverify
    (by simp [bverify])
  have h6 := splitOnByte_append 47 (k ++ 47 :: extra) u hu47
  have h7 := splitOnByte_append 47 extra k hk47
  simp only [parse, h1, h2, h3, h4, h5, h6, h7, huv, hkv]
  simp [bGET, bHTTP11, bverify]

theorem parse_ignores_extra_segments_witness :
    ((47 : Nat) ∉ ([97] : List Nat)) ∧ ((32 : Nat) ∉ ([97] : List Nat)) ∧
    ((10 : Nat) ∉ ([97] : List Nat)) ∧
    ((47 : Nat) ∉ ([] : List Nat)) ∧ ((32 : Nat) ∉ ([] : List Nat)) ∧
    ((10 : Nat) ∉ ([] : List Nat)) ∧
    ((32 : Nat) ∉ ([120, 47, 121] : List Nat)) ∧ ((10 : Nat) ∉ ([120, 47, 121] : List Nat)) ∧
    validUtf8 [97] = true ∧ validUtf8 [] = true ∧
    parse ((bGET ++ 32 :: ((47 :: (bverify ++ 47 :: ([97] ++ 47 :: (([] : List Nat) ++
        47 :: [120, 47, 121])))) ++ 32 :: bHTTP11)) ++ 10 :: []) = PRes.parsed [97] [] :=
  ⟨by decide, by decide, by decide, by decide, by decide, by decide, by decide, by decide,
    by decide, by decide,
    parse_ignores_extra_segments [97] [] [120, 47, 121] [] (by decide) (by decide)
      (by decide) (by decide) (by decide) (by decide) (by decide) (by decide)
      (by decide) (by decide)⟩

end SsoAuth
